import Mathlib

/-!
Verification of `admin/create_zip_for_download.py`, a one-shot archiving
script: it locates a repository root, resolves a docs directory, walks it
in sorted order and writes a zip archive, skipping OS-noise files.

The filesystem below the docs directory is embedded as a flat list of
entries (path components relative to the docs directory, plus kind).
`pfx` is the component list of the absolute path of the docs directory
itself, since `should_skip` in the source inspects the absolute path.
Paths of a real filesystem have pairwise distinct sibling names and
slash-free nonempty components; `wfB` captures this.
-/

namespace ZipScrape

/-- Code-point lexicographic order on character lists: this is how Python
compares the path strings handed to `sorted(...)` in `main`. -/
def charListLe : List Char → List Char → Bool
  | [], _ => true
  | _ :: _, [] => false
  | a :: as, b :: bs =>
    if a.toNat < b.toNat then true
    else if b.toNat < a.toNat then false
    else charListLe as bs

/-- Python string `<=` (code-point lexicographic). -/
def strLe (a b : String) : Bool := charListLe a.data b.data

/-- Kind of a filesystem entry: directory, or regular file with byte content. -/
inductive FsKind where
  | dir : FsKind
  | file : List Nat → FsKind
deriving DecidableEq

/-- One filesystem entry below the docs directory: its path (components
relative to the docs directory) and its kind. -/
structure FsEntry where
  path : List String
  kind : FsKind
deriving DecidableEq

def FsKind.isDir : FsKind → Bool
  | .dir => true
  | .file _ => false

/-- Join path components with forward slashes: `rel.as_posix()` /
`str(PurePosixPath(...))` in the source. -/
def pathStr : List String → String
  | [] => ""
  | [x] => x
  | x :: y :: t => x ++ "/" ++ pathStr (y :: t)

/-- A legal path component: nonempty and slash-free. -/
def goodNameB (s : String) : Bool := (s != "") && !(s.data.contains '/')

def wfEntryB (e : FsEntry) : Bool := (!e.path.isEmpty) && e.path.all goodNameB

/-- Every proper ancestor of an entry is present as a directory entry. -/
def ancestorClosedB (t : List FsEntry) : Bool :=
  t.all fun e => (List.range e.path.length).all fun n =>
    n == 0 || t.any fun e2 => e2.path == e.path.take n && e2.kind.isDir

/-- Well-formed source tree: legal components everywhere, pairwise distinct
paths, ancestors present as directories. -/
def wfB (t : List FsEntry) : Bool :=
  t.all wfEntryB && decide ((t.map FsEntry.path).Nodup) && ancestorClosedB t

/-- `should_skip` from the source: skip when the base name is `.DS_Store` or
`Thumbs.db`, or when any component of the (absolute) path is `__pycache__`.
`parts` is the full component list of the path (as Python's `path.parts`). -/
def should_skip (parts : List String) : Bool :=
  let name := parts.getLastD ""
  if name == ".DS_Store" || name == "Thumbs.db" then true
  else if parts.contains "__pycache__" then true
  else false

/-- One record written into the zip: archive name and byte content. -/
structure ZipEntry where
  name : String
  data : List Nat
deriving DecidableEq

/-- `c` is a direct child path of `p` (`c = p ++ [one more component]`). -/
def isChildOf (c p : List String) : Bool := (!c.isEmpty) && c.dropLast == p

/-- `any(p.iterdir())` in the source: the directory at `p` has at least one
direct child in the tree (raw check, before any filtering). -/
def hasAnyChild (t : List FsEntry) (p : List String) : Bool :=
  t.any fun e => isChildOf e.path p

/-- Body of the `for p in sorted(docs_dir.rglob("*"))` loop in `main`:
skip denylisted paths; an empty directory yields a zero-length marker entry
named with a trailing slash; a file yields its content under its relative
path; a non-empty directory yields nothing. -/
def processEntry (pfx : List String) (t : List FsEntry) (e : FsEntry) : Option ZipEntry :=
  if should_skip (pfx ++ e.path) then none
  else
    let arc := pathStr e.path
    match e.kind with
    | .dir => if hasAnyChild t e.path then none else some ⟨arc ++ "/", []⟩
    | .file c => some ⟨arc, c⟩

/-- Sort key of an entry: its full (absolute) path string, as compared by
Python's `sorted` over `Path` objects. -/
def fullKey (pfx : List String) (e : FsEntry) : String := pathStr (pfx ++ e.path)

def insertLe (pfx : List String) (a : FsEntry) : List FsEntry → List FsEntry
  | [] => [a]
  | b :: l =>
    if strLe (fullKey pfx a) (fullKey pfx b) then a :: b :: l
    else b :: insertLe pfx a l

/-- `sorted(docs_dir.rglob("*"))`: the tree's entries in nondecreasing
full-path-string order (insertion sort; on distinct keys the sorted order
is unique, so any correct sort models Python's). -/
def sortEntries (pfx : List String) : List FsEntry → List FsEntry
  | [] => []
  | a :: l => insertLe pfx a (sortEntries pfx l)

/-- The sequence of entries written into the zip by `main`'s loop. -/
def buildZip (pfx : List String) (t : List FsEntry) : List ZipEntry :=
  (sortEntries pfx t).filterMap (processEntry pfx t)

/-- Python's `a or b` for an optional string argument: `None` and the empty
string both fall through to the default. -/
def pyOr (a : Option String) (b : String) : String :=
  match a with
  | none => b
  | some s => if s = "" then b else s

/-- `Path(s).name`: the final path component of a path string — the
characters after the last slash. -/
def pathName (s : String) : String :=
  ⟨(s.data.reverse.takeWhile (fun c => c != '/')).reverse⟩

/-- `find_repo_root` from the source. `gitTop` is the outcome of the
`git rev-parse --show-toplevel` subprocess (`some` = resolved toplevel on
success, `none` = any failure); `ancestors` is `[cur, *cur.parents]`;
`hasDotGit p` models `(p / ".git").exists()`. -/
def find_repo_root (gitTop : Option String) (ancestors : List String)
    (hasDotGit : String → Bool) : Except String String :=
  match gitTop with
  | some top => .ok top
  | none =>
    match ancestors.find? hasDotGit with
    | some p => .ok p
    | none => .error "Could not find repo root (no git and no .git folder found)"

/-- `ZipFile(zip_path, "w")`: create or truncate the file at `p`, no
existence check. The filesystem of archive files is a partial map. -/
def writeStore (store : String → Option (List ZipEntry)) (p : String)
    (v : List ZipEntry) : String → Option (List ZipEntry) :=
  fun q => if q = p then some v else store q

/-- `main` from the source, with its external collaborators as parameters:
the git subprocess outcome, the ancestor chain of the script directory, the
command-line arguments, today's stamp, and the filesystem. `lookupDir d`
returns the docs tree (absolute-path components of `d`, entries under `d`)
when `d` exists and is a directory, else `none`. The result is the exit
outcome (`.ok zip_path` / `.error message`, the latter printed as
`ERROR: ...` with nonzero exit by the `__main__` handler) paired with the
final archive-file store; the archive is only written after root and docs
resolution succeed. -/
def run_main (gitTop : Option String) (ancestors : List String) (hasDotGit : String → Bool)
    (docsArg outArg stampArg : Option String) (today : String)
    (lookupDir : String → Option (List String × List FsEntry))
    (store : String → Option (List ZipEntry)) :
    Except String String × (String → Option (List ZipEntry)) :=
  match find_repo_root gitTop ancestors hasDotGit with
  | .error e => (.error e, store)
  | .ok repo_root =>
    let repo_name := pathName repo_root
    let docs_dir := pyOr docsArg (repo_root ++ "/export_data/inspection_reports")
    match lookupDir docs_dir with
    | none => (.error ("export_data/inspection_reports folder not found: " ++ docs_dir), store)
    | some (pfx, t) =>
      let out_dir := pyOr outArg repo_root
      let stamp := pyOr stampArg today
      let zip_path := out_dir ++ "/" ++ (stamp ++ "_" ++ repo_name ++ ".zip")
      (.ok zip_path, writeStore store zip_path (buildZip pfx t))

/-- Modelled from the spec: the subtree-pruning traversal the spec calls
"behaviorally equivalent" — an entry is dropped when any nonempty prefix of
its path (itself or an ancestor directory) is denylisted by `should_skip`;
surviving entries are archived as in `main`. -/
def denyPruned (pfx p : List String) : Bool :=
  (List.range p.length).any fun n => should_skip (pfx ++ p.take (n + 1))

/-- Modelled from the spec: archive produced by a traversal that never
descends into a denylisted directory (nor emits any denylisted entry). -/
def prunedZip (pfx : List String) (t : List FsEntry) : List ZipEntry :=
  (sortEntries pfx t).filterMap fun e =>
    if denyPruned pfx e.path then none
    else
      match e.kind with
      | .dir => if hasAnyChild t e.path then none else some ⟨pathStr e.path ++ "/", []⟩
      | .file c => some ⟨pathStr e.path, c⟩

/-- Modelled from the spec (amended): prune only directories named
`__pycache__` — some nonempty prefix of the path ends in `__pycache__`. -/
def cachePruned (p : List String) : Bool :=
  (List.range p.length).any fun n => (p.take (n + 1)).getLastD "" == "__pycache__"

/-- Modelled from the spec (amended): traversal that never descends into a
directory named `__pycache__`, while still applying the base-name denylist
per entry; surviving entries are archived as in `main`. -/
def cachePruneZip (pfx : List String) (t : List FsEntry) : List ZipEntry :=
  (sortEntries pfx t).filterMap fun e =>
    if cachePruned e.path then none
    else
      let name := (pfx ++ e.path).getLastD ""
      if name == ".DS_Store" || name == "Thumbs.db" then none
      else
        match e.kind with
        | .dir => if hasAnyChild t e.path then none else some ⟨pathStr e.path ++ "/", []⟩
        | .file c => some ⟨pathStr e.path, c⟩

/-- The worked example of the spec: `x.txt` ("hello"), an empty `sub/`,
and `__pycache__/y.txt`. -/
def sampleTree : List FsEntry :=
  [ ⟨["x.txt"], .file [104, 101, 108, 108, 111]⟩,
    ⟨["sub"], .dir⟩,
    ⟨["__pycache__"], .dir⟩,
    ⟨["__pycache__", "y.txt"], .file [121]⟩ ]

/-- A directory whose own name is denylisted but whose content is clean. -/
def hiddenDirTree : List FsEntry :=
  [ ⟨[".DS_Store"], .dir⟩,
    ⟨[".DS_Store", "a.txt"], .file [104]⟩ ]

/-- A directory whose only direct child is a denylisted file. -/
def noiseOnlyTree : List FsEntry :=
  [ ⟨["d"], .dir⟩,
    ⟨["d", ".DS_Store"], .file [1]⟩ ]

/-- A legal path component, as a proposition. -/
def goodName (s : String) : Prop := s ≠ "" ∧ '/' ∉ s.data

/-! ### List and string utilities -/

theorem goodNameB_iff {s : String} : goodNameB s = true ↔ goodName s := by
  simp [goodNameB, goodName]

theorem contains_append {α} [BEq α] [LawfulBEq α] (l₁ l₂ : List α) (a : α) :
    ((l₁ ++ l₂).contains a) = (l₁.contains a || l₂.contains a) := by
  induction l₁ with
  | nil => rfl
  | cons x xs ih => by_cases h : a = x <;> simp_all [List.contains_cons, Bool.or_assoc]

theorem contains_iff {α} [BEq α] [LawfulBEq α] (l : List α) (a : α) :
    l.contains a = true ↔ a ∈ l := by simp

theorem getLastD_ne_nil {α} {p : List α} (h : p ≠ []) (d₁ d₂ : α) :
    p.getLastD d₁ = p.getLastD d₂ := by
  cases p with
  | nil => exact absurd rfl h
  | cons a l => rw [List.getLastD_cons, List.getLastD_cons]

theorem getLastD_append {α} (pfx : List α) {p : List α} (h : p ≠ []) (d : α) :
    (pfx ++ p).getLastD d = p.getLastD d := by
  induction pfx with
  | nil => rfl
  | cons a l ih =>
    have hne : l ++ p ≠ [] := by
      intro hc
      exact h (List.append_eq_nil.mp hc).2
    rw [List.cons_append, List.getLastD_cons, getLastD_ne_nil hne a d, ih]

theorem getLastD_take {α} (d : α) : ∀ (p : List α) (n : Nat), n < p.length →
    (p.take (n + 1)).getLastD d = p.getD n d := by
  intro p
  induction p with
  | nil => intro n h; simp at h
  | cons a l ih =>
    intro n h
    cases n with
    | zero => simp
    | succ m =>
      have hm : m < l.length := by simpa using h
      have hlne : l ≠ [] := by
        intro hc
        rw [hc] at hm
        simp at hm
      have hne : l.take (m + 1) ≠ [] := by
        simp [List.take_eq_nil_iff, hlne]
      rw [List.take_succ_cons, List.getLastD_cons, getLastD_ne_nil hne a d, ih m hm]
      simp [List.getD_cons_succ]

theorem string_data_ne_nil {s : String} (h : s ≠ "") : s.data ≠ [] := by
  intro hc
  exact h (String.ext hc)

theorem char_toNat_inj {a b : Char} (h : a.toNat = b.toNat) : a = b := by
  rw [← Char.ofNat_toNat a, ← Char.ofNat_toNat b, h]

/-! ### `pathStr` lemmas -/

@[simp] theorem pathStr_nil : pathStr [] = "" := rfl

@[simp] theorem pathStr_single (x : String) : pathStr [x] = x := rfl

theorem pathStr_cons {x : String} {l : List String} (h : l ≠ []) :
    pathStr (x :: l) = x ++ "/" ++ pathStr l := by
  cases l with
  | nil => exact absurd rfl h
  | cons y t => rfl

theorem pathStr_data_cons {x : String} {l : List String} (h : l ≠ []) :
    (pathStr (x :: l)).data = x.data ++ '/' :: (pathStr l).data := by
  rw [pathStr_cons h, String.data_append, String.data_append]
  simp

theorem append_slash_inj : ∀ {x x' r r' : List Char}, '/' ∉ x → '/' ∉ x' →
    x ++ '/' :: r = x' ++ '/' :: r' → x = x' ∧ r = r' := by
  intro x
  induction x with
  | nil =>
    intro x' r r' _ hx' h
    cases x' with
    | nil => simpa using h
    | cons c cs =>
      rw [List.nil_append, List.cons_append] at h
      injection h with h1 _
      cases h1
      exact absurd (List.mem_cons_self _ _) hx'
  | cons a as ih =>
    intro x' r r' hx hx' h
    cases x' with
    | nil =>
      rw [List.cons_append, List.nil_append] at h
      injection h with h1 _
      cases h1
      exact absurd (List.mem_cons_self _ _) hx
    | cons b bs =>
      rw [List.cons_append, List.cons_append] at h
      injection h with h1 h2
      cases h1
      have hx2 : '/' ∉ as := fun hm => hx (List.mem_cons_of_mem _ hm)
      have hx2' : '/' ∉ bs := fun hm => hx' (List.mem_cons_of_mem _ hm)
      obtain ⟨e1, e2⟩ := ih hx2 hx2' h2
      exact ⟨by rw [e1], e2⟩

theorem pathStr_inj : ∀ {p q : List String}, (∀ s ∈ p, goodName s) → (∀ s ∈ q, goodName s) →
    pathStr p = pathStr q → p = q := by
  intro p
  induction p with
  | nil =>
    intro q _ hq h
    cases q with
    | nil => rfl
    | cons y ys =>
      exfalso
      cases ys with
      | nil =>
        exact (hq y (List.mem_cons_self _ _)).1 (by simpa using h.symm)
      | cons b bs =>
        have hd := congrArg String.data h
        rw [pathStr_data_cons (by simp)] at hd
        simp at hd
  | cons x xs ih =>
    intro q hp hq h
    have hgx : goodName x := hp x (List.mem_cons_self _ _)
    have hpt : ∀ s ∈ xs, goodName s := fun s hs => hp s (List.mem_cons_of_mem _ hs)
    cases q with
    | nil =>
      exfalso
      cases xs with
      | nil => exact hgx.1 (by simpa using h)
      | cons b bs =>
        have hd := congrArg String.data h
        rw [pathStr_data_cons (by simp)] at hd
        simp at hd
    | cons y ys =>
      have hgy : goodName y := hq y (List.mem_cons_self _ _)
      have hqt : ∀ s ∈ ys, goodName s := fun s hs => hq s (List.mem_cons_of_mem _ hs)
      cases xs with
      | nil =>
        cases ys with
        | nil => simpa using h
        | cons b bs =>
          exfalso
          have hd := congrArg String.data h
          rw [pathStr_data_cons (l := b :: bs) (by simp)] at hd
          simp only [pathStr_single] at hd
          exact hgx.2 (hd ▸ (by simp : '/' ∈ y.data ++ '/' :: (pathStr (b :: bs)).data))
      | cons a as =>
        cases ys with
        | nil =>
          exfalso
          have hd := congrArg String.data h
          rw [pathStr_data_cons (l := a :: as) (by simp)] at hd
          simp only [pathStr_single] at hd
          exact hgy.2 (hd ▸ (by simp : '/' ∈ x.data ++ '/' :: (pathStr (a :: as)).data))
        | cons b bs =>
          have hd := congrArg String.data h
          rw [pathStr_data_cons (l := a :: as) (by simp),
              pathStr_data_cons (l := b :: bs) (by simp)] at hd
          obtain ⟨e1, e2⟩ := append_slash_inj hgx.2 hgy.2 hd
          have hx : x = y := String.ext e1
          have ht : (a :: as) = (b :: bs) := ih hpt hqt (String.ext e2)
          rw [hx, ht]

theorem getLastD_mem {α} : ∀ {l : List α} (d : α), l ≠ [] → l.getLastD d ∈ l := by
  intro l
  induction l with
  | nil => intro d h; exact absurd rfl h
  | cons a t ih =>
    intro d _
    rw [List.getLastD_cons]
    cases t with
    | nil => simp
    | cons b m => exact List.mem_cons_of_mem _ (ih a (by simp))

theorem pathStr_getLastD_ne_slash : ∀ {p : List String}, p ≠ [] → (∀ s ∈ p, goodName s) →
    (pathStr p).data.getLastD '/' ≠ '/' := by
  intro p
  induction p with
  | nil => intro h _; exact absurd rfl h
  | cons x xs ih =>
    intro _ hg
    have hgx : goodName x := hg x (List.mem_cons_self _ _)
    cases xs with
    | nil =>
      simp only [pathStr_single]
      intro hc
      exact hgx.2 (hc ▸ getLastD_mem '/' (string_data_ne_nil hgx.1))
    | cons b bs =>
      rw [pathStr_data_cons (by simp)]
      rw [getLastD_append _ (by simp) _, List.getLastD_cons]
      exact ih (by simp) (fun s hs => hg s (List.mem_cons_of_mem _ hs))

/-- A file's archive name (the joined relative path of a well-formed entry)
never ends in a slash, so it differs from every directory-marker name. -/
theorem pathStr_ne_concat_slash {p : List String} (hne : p ≠ [])
    (hg : ∀ s ∈ p, goodName s) (s : String) : pathStr p ≠ s ++ "/" := by
  intro h
  have hlast := pathStr_getLastD_ne_slash hne hg
  have hd := congrArg String.data h
  rw [String.data_append] at hd
  have hslash : ("/" : String).data = ['/'] := rfl
  rw [hslash] at hd
  rw [hd, getLastD_append _ (by simp) _] at hlast
  simp at hlast

theorem concat_slash_inj {s s' : String} (h : s ++ "/" = s' ++ "/") : s = s' := by
  have hd := congrArg String.data h
  rw [String.data_append, String.data_append] at hd
  exact String.ext (List.append_cancel_right hd)

/-! ### Lexicographic order lemmas -/

theorem charListLe_total : ∀ (a b : List Char), charListLe a b = true ∨ charListLe b a = true := by
  intro a
  induction a with
  | nil => intro b; left; rfl
  | cons x xs ih =>
    intro b
    cases b with
    | nil => right; rfl
    | cons y ys =>
      rcases Nat.lt_trichotomy x.toNat y.toNat with h | h | h
      · left; simp [charListLe, h]
      · have h2 : ¬x.toNat < y.toNat := by omega
        have h3 : ¬y.toNat < x.toNat := by omega
        rcases ih ys with hr | hr
        · left; simp [charListLe, h2, h3, hr]
        · right; simp [charListLe, h2, h3, hr]
      · right; simp [charListLe, h]

theorem charListLe_trans : ∀ (a b c : List Char), charListLe a b = true →
    charListLe b c = true → charListLe a c = true := by
  intro a
  induction a with
  | nil => intro b c _ _; rfl
  | cons x xs ih =>
    intro b c h1 h2
    cases b with
    | nil => simp [charListLe] at h1
    | cons y ys =>
      cases c with
      | nil => simp [charListLe] at h2
      | cons z zs =>
        simp only [charListLe] at h1 h2 ⊢
        by_cases hxy : x.toNat < y.toNat
        · by_cases hyz : y.toNat < z.toNat
          · rw [if_pos (show x.toNat < z.toNat by omega)]
          · rw [if_neg hyz] at h2
            by_cases hzy : z.toNat < y.toNat
            · rw [if_pos hzy] at h2
              exact absurd h2 (by simp)
            · rw [if_pos (show x.toNat < z.toNat by omega)]
        · rw [if_neg hxy] at h1
          by_cases hyx : y.toNat < x.toNat
          · rw [if_pos hyx] at h1
            exact absurd h1 (by simp)
          · rw [if_neg hyx] at h1
            by_cases hyz : y.toNat < z.toNat
            · rw [if_pos (show x.toNat < z.toNat by omega)]
            · rw [if_neg hyz] at h2
              by_cases hzy : z.toNat < y.toNat
              · rw [if_pos hzy] at h2
                exact absurd h2 (by simp)
              · rw [if_neg hzy] at h2
                rw [if_neg (show ¬x.toNat < z.toNat by omega),
                    if_neg (show ¬z.toNat < x.toNat by omega)]
                exact ih ys zs h1 h2

theorem charListLe_antisymm : ∀ (a b : List Char), charListLe a b = true →
    charListLe b a = true → a = b := by
  intro a
  induction a with
  | nil =>
    intro b _ h2
    cases b with
    | nil => rfl
    | cons y ys => simp [charListLe] at h2
  | cons x xs ih =>
    intro b h1 h2
    cases b with
    | nil => simp [charListLe] at h1
    | cons y ys =>
      simp only [charListLe] at h1 h2
      by_cases hxy : x.toNat < y.toNat
      · rw [if_neg (show ¬y.toNat < x.toNat by omega), if_pos hxy] at h2
        exact absurd h2 (by simp)
      · rw [if_neg hxy] at h1
        by_cases hyx : y.toNat < x.toNat
        · rw [if_pos hyx] at h1
          exact absurd h1 (by simp)
        · rw [if_neg hyx] at h1
          rw [if_neg hyx, if_neg hxy] at h2
          have hx : x = y := char_toNat_inj (by omega)
          rw [hx, ih ys h1 h2]

theorem strLe_total (a b : String) : strLe a b = true ∨ strLe b a = true :=
  charListLe_total a.data b.data

theorem strLe_trans {a b c : String} (h1 : strLe a b = true) (h2 : strLe b c = true) :
    strLe a c = true :=
  charListLe_trans a.data b.data c.data h1 h2

theorem strLe_antisymm {a b : String} (h1 : strLe a b = true) (h2 : strLe b a = true) :
    a = b :=
  String.ext (charListLe_antisymm a.data b.data h1 h2)

/-- Joining a shared absolute prefix preserves and reflects equality of the
relative paths: equal full keys force equal relative paths. -/
theorem pathStr_append_inj {pfx a b : List String} (ha : a ≠ []) (hb : b ≠ [])
    (hga : ∀ s ∈ a, goodName s) (hgb : ∀ s ∈ b, goodName s)
    (h : pathStr (pfx ++ a) = pathStr (pfx ++ b)) : a = b := by
  induction pfx with
  | nil => exact pathStr_inj hga hgb h
  | cons x l ih =>
    have h1 : l ++ a ≠ [] := by
      intro hc; exact ha (List.append_eq_nil.mp hc).2
    have h2 : l ++ b ≠ [] := by
      intro hc; exact hb (List.append_eq_nil.mp hc).2
    rw [List.cons_append, List.cons_append, pathStr_cons h1, pathStr_cons h2] at h
    have hd := congrArg String.data h
    rw [String.data_append, String.data_append, String.data_append, String.data_append] at hd
    have hcancel := List.append_cancel_left hd
    exact ih (String.ext hcancel)

/-! ### Sorting lemmas -/

theorem insertLe_perm (pfx : List String) (a : FsEntry) (l : List FsEntry) :
    (insertLe pfx a l).Perm (a :: l) := by
  induction l with
  | nil => exact List.Perm.refl _
  | cons b m ih =>
    rw [insertLe]
    split
    · exact List.Perm.refl _
    · exact (List.Perm.cons b ih).trans (List.Perm.swap a b m)

theorem sortEntries_perm (pfx : List String) (l : List FsEntry) :
    (sortEntries pfx l).Perm l := by
  induction l with
  | nil => exact List.Perm.refl _
  | cons a m ih =>
    rw [sortEntries]
    exact (insertLe_perm pfx a _).trans (List.Perm.cons a ih)

theorem insertLe_pairwise (pfx : List String) (a : FsEntry) (l : List FsEntry)
    (h : l.Pairwise (fun x y => strLe (fullKey pfx x) (fullKey pfx y) = true)) :
    (insertLe pfx a l).Pairwise (fun x y => strLe (fullKey pfx x) (fullKey pfx y) = true) := by
  induction l with
  | nil => simp [insertLe]
  | cons b m ih =>
    rw [insertLe]
    rcases List.pairwise_cons.mp h with ⟨hb, hm⟩
    split
    case isTrue hab =>
      refine List.pairwise_cons.mpr ⟨?_, h⟩
      intro x hx
      rcases List.mem_cons.mp hx with rfl | hxm
      · exact hab
      · exact strLe_trans hab (hb x hxm)
    case isFalse hab =>
      have hba : strLe (fullKey pfx b) (fullKey pfx a) = true := by
        rcases strLe_total (fullKey pfx a) (fullKey pfx b) with ht | ht
        · exact absurd ht hab
        · exact ht
      refine List.pairwise_cons.mpr ⟨?_, ih hm⟩
      intro x hx
      have hx' : x ∈ a :: m := (insertLe_perm pfx a m).mem_iff.mp hx
      rcases List.mem_cons.mp hx' with rfl | hxm
      · exact hba
      · exact hb x hxm

theorem sortEntries_pairwise (pfx : List String) (l : List FsEntry) :
    (sortEntries pfx l).Pairwise (fun x y => strLe (fullKey pfx x) (fullKey pfx y) = true) := by
  induction l with
  | nil => simp [sortEntries]
  | cons a m ih =>
    rw [sortEntries]
    exact insertLe_pairwise pfx a _ ih

/-- Two sorted permutations of each other coincide, provided the order is
antisymmetric on the elements involved. -/
theorem eq_of_perm_of_pairwise {α : Type} {R : α → α → Prop} :
    ∀ {l₁ l₂ : List α}, l₁.Perm l₂ → l₁.Pairwise R → l₂.Pairwise R →
      (∀ a ∈ l₁, ∀ b ∈ l₁, R a b → R b a → a = b) → l₁ = l₂ := by
  intro l₁
  induction l₁ with
  | nil =>
    intro l₂ hp _ _ _
    exact hp.nil_eq
  | cons a m ih =>
    intro l₂ hp h1 h2 hanti
    cases l₂ with
    | nil =>
      have := hp.symm.nil_eq
      simp at this
    | cons b m₂ =>
      have hab : a = b := by
        by_cases heq : a = b
        · exact heq
        · have ha2 : a ∈ b :: m₂ := hp.mem_iff.mp (List.mem_cons_self _ _)
          have hb1 : b ∈ a :: m := hp.symm.mem_iff.mp (List.mem_cons_self _ _)
          have ham2 : a ∈ m₂ := by
            rcases List.mem_cons.mp ha2 with h | h
            · exact absurd h heq
            · exact h
          have hbm : b ∈ m := by
            rcases List.mem_cons.mp hb1 with h | h
            · exact absurd h.symm heq
            · exact h
          have hRab : R a b := (List.pairwise_cons.mp h1).1 b hbm
          have hRba : R b a := (List.pairwise_cons.mp h2).1 a ham2
          exact hanti a (List.mem_cons_self _ _) b (List.mem_cons_of_mem _ hbm) hRab hRba
      subst hab
      have hpm : m.Perm m₂ := hp.cons_inv
      have hrest := ih hpm (List.pairwise_cons.mp h1).2 (List.pairwise_cons.mp h2).2
        (fun x hx y hy => hanti x (List.mem_cons_of_mem _ hx) y (List.mem_cons_of_mem _ hy))
      rw [hrest]

/-! ### Well-formedness accessors -/

theorem wf_mem {t : List FsEntry} (h : wfB t = true) {e : FsEntry} (he : e ∈ t) :
    e.path ≠ [] ∧ ∀ s ∈ e.path, goodName s := by
  unfold wfB at h
  rw [Bool.and_eq_true, Bool.and_eq_true] at h
  have hall := h.1.1
  rw [List.all_eq_true] at hall
  have hthis := hall e he
  unfold wfEntryB at hthis
  rw [Bool.and_eq_true] at hthis
  constructor
  · intro hc
    rw [hc] at hthis
    simp at hthis
  · intro s hs
    have h2 := hthis.2
    rw [List.all_eq_true] at h2
    exact goodNameB_iff.mp (h2 s hs)

theorem wf_paths_nodup {t : List FsEntry} (h : wfB t = true) :
    (t.map FsEntry.path).Nodup := by
  unfold wfB at h
  rw [Bool.and_eq_true, Bool.and_eq_true] at h
  exact of_decide_eq_true h.1.2

theorem wf_nodup {t : List FsEntry} (h : wfB t = true) : t.Nodup :=
  (wf_paths_nodup h).of_map _

/-! ### `should_skip` lemmas -/

theorem should_skip_eq (parts : List String) :
    should_skip parts =
      ((parts.getLastD "" == ".DS_Store" || parts.getLastD "" == "Thumbs.db") ||
        parts.contains "__pycache__") := by
  simp only [should_skip]
  cases h1 : (parts.getLastD "" == ".DS_Store" || parts.getLastD "" == "Thumbs.db") <;>
    cases h2 : parts.contains "__pycache__" <;> simp [h1, h2]

theorem should_skip_false_iff {pfx p : List String} (hp : p ≠ []) :
    should_skip (pfx ++ p) = false ↔
      (p.getLastD "" ≠ ".DS_Store" ∧ p.getLastD "" ≠ "Thumbs.db" ∧
        "__pycache__" ∉ pfx ∧ "__pycache__" ∉ p) := by
  rw [should_skip_eq, getLastD_append pfx hp, contains_append]
  simp [not_or]
  tauto

/-! ### `processEntry` and `buildZip` lemmas -/

theorem processEntry_file {pfx : List String} {t : List FsEntry} {e : FsEntry} {c : List Nat}
    (hk : e.kind = .file c) (hskip : should_skip (pfx ++ e.path) = false) :
    processEntry pfx t e = some ⟨pathStr e.path, c⟩ := by
  simp [processEntry, hskip, hk]

theorem processEntry_empty_dir {pfx : List String} {t : List FsEntry} {e : FsEntry}
    (hk : e.kind = .dir) (hskip : should_skip (pfx ++ e.path) = false)
    (hch : hasAnyChild t e.path = false) :
    processEntry pfx t e = some ⟨pathStr e.path ++ "/", []⟩ := by
  simp [processEntry, hskip, hk, hch]

theorem processEntry_some {pfx : List String} {t : List FsEntry} {e : FsEntry} {z : ZipEntry}
    (h : processEntry pfx t e = some z) :
    should_skip (pfx ++ e.path) = false ∧
      ((∃ c, e.kind = .file c ∧ z = ⟨pathStr e.path, c⟩) ∨
        (e.kind = .dir ∧ hasAnyChild t e.path = false ∧ z = ⟨pathStr e.path ++ "/", []⟩)) := by
  unfold processEntry at h
  split at h
  · cases h
  · next hskip =>
    have hs : should_skip (pfx ++ e.path) = false := by
      revert hskip
      cases should_skip (pfx ++ e.path) <;> simp
    refine ⟨hs, ?_⟩
    cases hk : e.kind with
    | dir =>
      rw [hk] at h
      simp only at h
      split at h
      · cases h
      · next hchild =>
        injection h with h'
        refine Or.inr ⟨rfl, ?_, h'.symm⟩
        revert hchild
        cases hasAnyChild t e.path <;> simp
    | file c =>
      rw [hk] at h
      simp only at h
      injection h with h'
      exact Or.inl ⟨c, rfl, h'.symm⟩

theorem countP_filterMap {α β} (f : α → Option β) (q : β → Bool) :
    ∀ l : List α, (l.filterMap f).countP q = l.countP (fun a => ((f a).map q).getD false) := by
  intro l
  induction l with
  | nil => rfl
  | cons a m ih =>
    rw [List.filterMap_cons]
    cases hf : f a with
    | none => simp [List.countP_cons, hf, ih]
    | some b => by_cases hq : q b = true <;> simp [List.countP_cons, hf, hq, ih]

theorem countP_buildZip (pfx : List String) (t : List FsEntry) (q : ZipEntry → Bool) :
    (buildZip pfx t).countP q =
      t.countP (fun e => ((processEntry pfx t e).map q).getD false) := by
  unfold buildZip
  rw [countP_filterMap]
  exact (sortEntries_perm pfx t).countP_eq _

theorem mem_buildZip {pfx : List String} {t : List FsEntry} {z : ZipEntry} :
    z ∈ buildZip pfx t ↔ ∃ e ∈ t, processEntry pfx t e = some z := by
  unfold buildZip
  rw [List.mem_filterMap]
  constructor
  · rintro ⟨e, he, hz⟩
    exact ⟨e, (sortEntries_perm pfx t).mem_iff.mp he, hz⟩
  · rintro ⟨e, he, hz⟩
    exact ⟨e, (sortEntries_perm pfx t).mem_iff.mpr he, hz⟩

/-- Distinct well-formed entries never produce archive records with the same
name: file names are injective, marker names are injective, and a marker name
(ending in a slash) is never a file name. -/
theorem processEntry_inj_name {pfx : List String} {t : List FsEntry} (hwf : wfB t = true)
    {e e' : FsEntry} (he : e ∈ t) (he' : e' ∈ t) {z z' : ZipEntry}
    (hz : processEntry pfx t e = some z) (hz' : processEntry pfx t e' = some z')
    (hname : z'.name = z.name) : e' = e := by
  obtain ⟨hpe, hge⟩ := wf_mem hwf he
  obtain ⟨hpe', hge'⟩ := wf_mem hwf he'
  have hinj := List.inj_on_of_nodup_map (wf_paths_nodup hwf)
  obtain ⟨-, hcase⟩ := processEntry_some hz
  obtain ⟨-, hcase'⟩ := processEntry_some hz'
  rcases hcase with ⟨c, hk, rfl⟩ | ⟨hk, hch, rfl⟩ <;>
    rcases hcase' with ⟨c', hk', rfl⟩ | ⟨hk', hch', rfl⟩
  · exact hinj he' he (pathStr_inj hge' hge hname)
  · exact absurd hname.symm (pathStr_ne_concat_slash hpe hge _)
  · exact absurd hname (pathStr_ne_concat_slash hpe' hge' _)
  · exact hinj he' he (pathStr_inj hge' hge (concat_slash_inj hname))

/-- The archive record produced by a well-formed entry appears under its name
exactly once in the whole archive. -/
theorem countP_name_one {pfx : List String} {t : List FsEntry} (hwf : wfB t = true)
    {e : FsEntry} (he : e ∈ t) {z : ZipEntry} (hz : processEntry pfx t e = some z) :
    (buildZip pfx t).countP (fun w => w.name == z.name) = 1 := by
  rw [countP_buildZip]
  have hstep : t.countP
        (fun e' => ((processEntry pfx t e').map (fun w => w.name == z.name)).getD false)
      = t.countP (fun e' => e' == e) := by
    apply List.countP_congr
    intro e' he'
    constructor
    · intro hp
      cases hpe' : processEntry pfx t e' with
      | none => rw [hpe'] at hp; simp at hp
      | some z' =>
        rw [hpe'] at hp
        simp at hp
        have he'e : e' = e := processEntry_inj_name hwf he he' hz hpe' hp
        simp [he'e]
    · intro hp
      simp at hp
      subst hp
      rw [hz]
      simp
  rw [hstep]
  exact List.count_eq_one_of_mem (wf_nodup hwf) he

theorem countP_zero {pfx : List String} {t : List FsEntry} (q : ZipEntry → Bool)
    (h : ∀ e ∈ t, ∀ z, processEntry pfx t e = some z → q z = false) :
    (buildZip pfx t).countP q = 0 := by
  rw [countP_buildZip, List.countP_eq_zero]
  intro e he
  cases hpe : processEntry pfx t e with
  | none => simp [hpe]
  | some z => simp [hpe, h e he z hpe]

theorem processEntry_skip {pfx : List String} {t : List FsEntry} {e : FsEntry}
    (hs : should_skip (pfx ++ e.path) = true) : processEntry pfx t e = none := by
  simp [processEntry, hs]

theorem processEntry_dir_nonempty {pfx : List String} {t : List FsEntry} {e : FsEntry}
    (hk : e.kind = .dir) (hch : hasAnyChild t e.path = true) :
    processEntry pfx t e = none := by
  cases hs : should_skip (pfx ++ e.path) with
  | true => exact processEntry_skip hs
  | false => simp [processEntry, hs, hk, hch]

theorem should_skip_of_name {pfx p : List String} (hp : p ≠ [])
    (h : p.getLastD "" = ".DS_Store" ∨ p.getLastD "" = "Thumbs.db") :
    should_skip (pfx ++ p) = true := by
  rw [should_skip_eq, getLastD_append pfx hp]
  rw [List.getLastD_eq_getLast?] at h
  rcases h with h | h <;> simp [h]

/-- If every entry sitting at path `p` yields no archive record, then no
record named after `p` (file form or directory-marker form) is in the
archive at all. -/
theorem countP_both_names_zero {pfx : List String} {t : List FsEntry} (hwf : wfB t = true)
    {p : List String} (hp : p ≠ []) (hg : ∀ s ∈ p, goodName s)
    (habsent : ∀ e ∈ t, e.path = p → processEntry pfx t e = none) :
    (buildZip pfx t).countP
      (fun w => w.name == pathStr p || w.name == pathStr p ++ "/") = 0 := by
  apply countP_zero
  intro e' he' z hz
  obtain ⟨hpe', hge'⟩ := wf_mem hwf he'
  obtain ⟨-, hcase⟩ := processEntry_some hz
  have h1 : z.name ≠ pathStr p := by
    rcases hcase with ⟨c', hk', rfl⟩ | ⟨hk', hch', rfl⟩
    · intro hcon
      have hpath : e'.path = p := pathStr_inj hge' hg hcon
      have := habsent e' he' hpath
      rw [this] at hz
      cases hz
    · intro hcon
      exact pathStr_ne_concat_slash hp hg _ hcon.symm
  have h2 : z.name ≠ pathStr p ++ "/" := by
    rcases hcase with ⟨c', hk', rfl⟩ | ⟨hk', hch', rfl⟩
    · exact pathStr_ne_concat_slash hpe' hge' _
    · intro hcon
      have hpath : e'.path = p := pathStr_inj hge' hg (concat_slash_inj hcon)
      have := habsent e' he' hpath
      rw [this] at hz
      cases hz
  simp [h1, h2]

theorem hasAnyChild_perm {t₁ t₂ : List FsEntry} (h : t₁.Perm t₂) (p : List String) :
    hasAnyChild t₁ p = hasAnyChild t₂ p := by
  unfold hasAnyChild
  cases hb : t₂.any fun e => isChildOf e.path p with
  | false =>
    rw [List.any_eq_false] at hb ⊢
    intro e he
    exact hb e (h.mem_iff.mp he)
  | true =>
    rw [List.any_eq_true] at hb ⊢
    obtain ⟨e, he, hce⟩ := hb
    exact ⟨e, h.mem_iff.mpr he, hce⟩

theorem find?_first {α} (f : α → Bool) :
    ∀ (l₁ : List α) (p : α) (l₂ : List α), (∀ q ∈ l₁, f q = false) → f p = true →
      (l₁ ++ p :: l₂).find? f = some p := by
  intro l₁
  induction l₁ with
  | nil =>
    intro p l₂ _ hp
    rw [List.nil_append]
    exact List.find?_cons_of_pos _ hp
  | cons a m ih =>
    intro p l₂ hall hp
    rw [List.cons_append, List.find?_cons_of_neg]
    · exact ih p l₂ (fun q hq => hall q (List.mem_cons_of_mem _ hq)) hp
    · simp [hall a (List.mem_cons_self _ _)]

/-- The cache-prune test (some nonempty prefix of the path ends in
`__pycache__`) is exactly the per-entry component test. -/
theorem cachePruned_eq_contains (p : List String) :
    cachePruned p = p.contains "__pycache__" := by
  cases hb : p.contains "__pycache__" with
  | true =>
    rw [contains_iff] at hb
    obtain ⟨i, hi, hget⟩ := List.mem_iff_getElem.mp hb
    unfold cachePruned
    rw [List.any_eq_true]
    refine ⟨i, List.mem_range.mpr hi, ?_⟩
    rw [getLastD_take "" p i hi]
    have : p.getD i "" = p[i] := List.getD_eq_getElem p "" hi
    rw [this, hget]
    rfl
  | false =>
    unfold cachePruned
    rw [List.any_eq_false]
    intro i hir
    have hi : i < p.length := List.mem_range.mp hir
    rw [getLastD_take "" p i hi]
    have hgd : p.getD i "" = p[i] := List.getD_eq_getElem p "" hi
    rw [hgd]
    intro hc
    have : p[i] = "__pycache__" := by simpa using hc
    have hmem : "__pycache__" ∈ p := this ▸ List.getElem_mem hi
    rw [← contains_iff] at hmem
    rw [hmem] at hb
    cases hb

theorem if_or_none {α} (a b : Bool) (x : Option α) :
    (if (a || b) = true then none else x) =
      (if b = true then none else if a = true then none else x) := by
  cases a <;> cases b <;> simp

theorem should_skip_eq_cache (pfx p : List String) (hpfx : "__pycache__" ∉ pfx) :
    should_skip (pfx ++ p) =
      (((pfx ++ p).getLastD "" == ".DS_Store" || (pfx ++ p).getLastD "" == "Thumbs.db") ||
        cachePruned p) := by
  rw [should_skip_eq, contains_append, cachePruned_eq_contains]
  have hc : pfx.contains "__pycache__" = false := by
    cases hb : pfx.contains "__pycache__" with
    | false => rfl
    | true => exact absurd (contains_iff _ _ |>.mp hb) hpfx
  rw [hc]
  simp

/-! ### Claim theorems -/

/-- **C1.** For every (well-formed) source tree, every regular file under
the source directory whose base name is not `.DS_Store` or `Thumbs.db` and
whose path (including the source directory's own absolute path) has no
component `__pycache__` appears exactly once in the output archive, under
its slash-joined relative path with no repository-name prefix, with
byte-identical content. -/
theorem claim1_file_exactly_once (pfx : List String) (t : List FsEntry) (e : FsEntry)
    (c : List Nat) (hwf : wfB t = true) (he : e ∈ t) (hk : e.kind = .file c)
    (hds : e.path.getLastD "" ≠ ".DS_Store") (htd : e.path.getLastD "" ≠ "Thumbs.db")
    (hpy : "__pycache__" ∉ e.path) (hpfx : "__pycache__" ∉ pfx) :
    ZipEntry.mk (pathStr e.path) c ∈ buildZip pfx t ∧
      (buildZip pfx t).countP (fun w => w.name == pathStr e.path) = 1 := by
  obtain ⟨hpe, -⟩ := wf_mem hwf he
  have hskip : should_skip (pfx ++ e.path) = false :=
    (should_skip_false_iff hpe).mpr ⟨hds, htd, hpfx, hpy⟩
  have hz := processEntry_file (t := t) hk hskip
  exact ⟨mem_buildZip.mpr ⟨e, he, hz⟩, countP_name_one hwf he hz⟩

/-- Witness for C1: the file `x.txt` of the spec's example tree. -/
theorem claim1_witness :
    ZipEntry.mk (pathStr ["x.txt"]) [104, 101, 108, 108, 111] ∈ buildZip ["docs"] sampleTree ∧
      (buildZip ["docs"] sampleTree).countP (fun w => w.name == pathStr ["x.txt"]) = 1 :=
  claim1_file_exactly_once ["docs"] sampleTree
    ⟨["x.txt"], .file [104, 101, 108, 108, 111]⟩ [104, 101, 108, 108, 111]
    (by decide) (by decide) rfl (by decide) (by decide) (by decide) (by decide)

/-- **C2.** For every subdirectory that is not denylisted and has zero
direct children (checked raw), the archive contains exactly one zero-length
entry named with the directory's relative path and a trailing slash, and
non-empty directories produce no directory entry of their own. -/
theorem claim2_empty_dir_marker (pfx : List String) (t : List FsEntry) (e : FsEntry)
    (hwf : wfB t = true) (he : e ∈ t) (hk : e.kind = .dir) :
    (hasAnyChild t e.path = false →
        e.path.getLastD "" ≠ ".DS_Store" → e.path.getLastD "" ≠ "Thumbs.db" →
        "__pycache__" ∉ e.path → "__pycache__" ∉ pfx →
        ZipEntry.mk (pathStr e.path ++ "/") [] ∈ buildZip pfx t ∧
          (buildZip pfx t).countP (fun w => w.name == pathStr e.path ++ "/") = 1) ∧
      (hasAnyChild t e.path = true →
        (buildZip pfx t).countP (fun w => w.name == pathStr e.path ++ "/") = 0) := by
  obtain ⟨hpe, hge⟩ := wf_mem hwf he
  constructor
  · intro hch hds htd hpy hpfx
    have hskip : should_skip (pfx ++ e.path) = false :=
      (should_skip_false_iff hpe).mpr ⟨hds, htd, hpfx, hpy⟩
    have hz := processEntry_empty_dir (t := t) hk hskip hch
    exact ⟨mem_buildZip.mpr ⟨e, he, hz⟩, countP_name_one hwf he hz⟩
  · intro hch
    apply countP_zero
    intro e' he' z hz
    obtain ⟨hpe', hge'⟩ := wf_mem hwf he'
    obtain ⟨-, hcase⟩ := processEntry_some hz
    have hne : z.name ≠ pathStr e.path ++ "/" := by
      rcases hcase with ⟨c', hk', rfl⟩ | ⟨hk', hch', rfl⟩
      · exact pathStr_ne_concat_slash hpe' hge' _
      · intro hcon
        have hpath : e'.path = e.path := pathStr_inj hge' hge (concat_slash_inj hcon)
        have he'e : e' = e := List.inj_on_of_nodup_map (wf_paths_nodup hwf) he' he hpath
        rw [he'e, hch] at hch'
        cases hch'
    simp [hne]

/-- Witness for C2: the empty directory `sub` of the spec's example tree. -/
theorem claim2_witness :
    ZipEntry.mk (pathStr ["sub"] ++ "/") [] ∈ buildZip ["docs"] sampleTree ∧
      (buildZip ["docs"] sampleTree).countP (fun w => w.name == pathStr ["sub"] ++ "/") = 1 :=
  (claim2_empty_dir_marker ["docs"] sampleTree ⟨["sub"], .dir⟩ (by decide) (by decide)
      rfl).1 (by decide) (by decide) (by decide) (by decide) (by decide)

/-- **C3.** Every entry written to the archive stems from a tree entry whose
base name is neither `.DS_Store` nor `Thumbs.db` and whose relative path has
no component `__pycache__` at any depth: no denylisted entry is ever
added. -/
theorem claim3_no_denylisted_entries (pfx : List String) (t : List FsEntry)
    (hwf : wfB t = true) :
    ∀ z ∈ buildZip pfx t, ∃ e ∈ t,
      (z.name = pathStr e.path ∨ z.name = pathStr e.path ++ "/") ∧
        e.path.getLastD "" ≠ ".DS_Store" ∧ e.path.getLastD "" ≠ "Thumbs.db" ∧
        "__pycache__" ∉ e.path := by
  intro z hz
  obtain ⟨e, he, hpz⟩ := mem_buildZip.mp hz
  obtain ⟨hpe, -⟩ := wf_mem hwf he
  obtain ⟨hskip, hcase⟩ := processEntry_some hpz
  obtain ⟨hds, htd, hpfx, hpy⟩ := (should_skip_false_iff hpe).mp hskip
  refine ⟨e, he, ?_, hds, htd, hpy⟩
  rcases hcase with ⟨c, hk, rfl⟩ | ⟨hk, hch, rfl⟩
  · exact Or.inl rfl
  · exact Or.inr rfl

/-- Witness for C3 at an archive entry of the spec's example tree. -/
theorem claim3_witness :
    ∃ e ∈ sampleTree,
      ((ZipEntry.mk "x.txt" [104, 101, 108, 108, 111]).name = pathStr e.path ∨
        (ZipEntry.mk "x.txt" [104, 101, 108, 108, 111]).name = pathStr e.path ++ "/") ∧
        e.path.getLastD "" ≠ ".DS_Store" ∧ e.path.getLastD "" ≠ "Thumbs.db" ∧
        "__pycache__" ∉ e.path :=
  claim3_no_denylisted_entries ["docs"] sampleTree (by decide)
    ⟨"x.txt", [104, 101, 108, 108, 111]⟩ (by decide)

/-- **C6.** Archive entry ordering is deterministic: the traversal visits
entries in nondecreasing full-path-string order (code-point lexicographic),
and any two runs over the same unchanged source tree — enumerated by the
filesystem in any order — produce the same archive, entry for entry. -/
theorem claim6_deterministic_order (pfx : List String) (t₁ t₂ : List FsEntry)
    (hwf : wfB t₁ = true) (hperm : t₁.Perm t₂) :
    buildZip pfx t₁ = buildZip pfx t₂ ∧
      (sortEntries pfx t₁).Pairwise
        (fun a b => strLe (fullKey pfx a) (fullKey pfx b) = true) := by
  have hanti : ∀ a ∈ t₁, ∀ b ∈ t₁,
      strLe (fullKey pfx a) (fullKey pfx b) = true →
      strLe (fullKey pfx b) (fullKey pfx a) = true → a = b := by
    intro a ha b hb h1 h2
    have hkey : fullKey pfx a = fullKey pfx b := strLe_antisymm h1 h2
    obtain ⟨hpa, hga⟩ := wf_mem hwf ha
    obtain ⟨hpb, hgb⟩ := wf_mem hwf hb
    have hpath : a.path = b.path := pathStr_append_inj hpa hpb hga hgb hkey
    exact List.inj_on_of_nodup_map (wf_paths_nodup hwf) ha hb hpath
  have hsorted : sortEntries pfx t₁ = sortEntries pfx t₂ := by
    apply eq_of_perm_of_pairwise
      ((sortEntries_perm pfx t₁).trans (hperm.trans (sortEntries_perm pfx t₂).symm))
      (sortEntries_pairwise pfx t₁) (sortEntries_pairwise pfx t₂)
    intro a ha b hb
    exact hanti a ((sortEntries_perm pfx t₁).mem_iff.mp ha)
      b ((sortEntries_perm pfx t₁).mem_iff.mp hb)
  have hproc : processEntry pfx t₁ = processEntry pfx t₂ := by
    funext e
    unfold processEntry
    rw [hasAnyChild_perm hperm]
  constructor
  · unfold buildZip
    rw [hsorted, hproc]
  · exact sortEntries_pairwise pfx t₁

/-- Witness for C6: the spec's example tree against a reshuffled enumeration
of the same tree. -/
theorem claim6_witness :
    buildZip ["docs"] sampleTree = buildZip ["docs"] sampleTree.reverse ∧
      (sortEntries ["docs"] sampleTree).Pairwise
        (fun a b => strLe (fullKey ["docs"] a) (fullKey ["docs"] b) = true) :=
  claim6_deterministic_order ["docs"] sampleTree sampleTree.reverse (by decide) (by decide)

/-- **C4.** If (after successful root resolution) the resolved source
directory does not exist or is not a directory, the run fails with a
"not found" error mentioning the missing path, the outcome is the error
exit, and no archive file is created: the store is untouched, since the
archive is only opened after source resolution succeeds. -/
theorem claim4_missing_docs_aborts (gitTop : Option String) (ancestors : List String)
    (hasDotGit : String → Bool) (docsArg outArg stampArg : Option String) (today : String)
    (lookupDir : String → Option (List String × List FsEntry))
    (store : String → Option (List ZipEntry)) (root : String)
    (hroot : find_repo_root gitTop ancestors hasDotGit = .ok root)
    (hdocs : lookupDir (pyOr docsArg (root ++ "/export_data/inspection_reports")) = none) :
    (run_main gitTop ancestors hasDotGit docsArg outArg stampArg today lookupDir store).1 =
        .error ("export_data/inspection_reports folder not found: " ++
          pyOr docsArg (root ++ "/export_data/inspection_reports")) ∧
      (∃ pre suf,
        "export_data/inspection_reports folder not found: " ++
            pyOr docsArg (root ++ "/export_data/inspection_reports") =
          pre ++ (pyOr docsArg (root ++ "/export_data/inspection_reports") ++ suf)) ∧
      (run_main gitTop ancestors hasDotGit docsArg outArg stampArg today lookupDir store).2 =
        store := by
  simp only [run_main, hroot, hdocs]
  exact ⟨trivial, ⟨"export_data/inspection_reports folder not found: ", "", by simp⟩, trivial⟩

/-- Witness for C4: missing docs directory on a concrete configuration. -/
theorem claim4_witness :
    (run_main (some "/r") [] (fun _ => false) none none none "20250101" (fun _ => none)
          (fun _ => none)).1 =
        .error ("export_data/inspection_reports folder not found: " ++
          pyOr none ("/r" ++ "/export_data/inspection_reports")) ∧
      (∃ pre suf,
        "export_data/inspection_reports folder not found: " ++
            pyOr none ("/r" ++ "/export_data/inspection_reports") =
          pre ++ (pyOr none ("/r" ++ "/export_data/inspection_reports") ++ suf)) ∧
      (run_main (some "/r") [] (fun _ => false) none none none "20250101" (fun _ => none)
          (fun _ => none)).2 =
        (fun _ => none) :=
  claim4_missing_docs_aborts (some "/r") [] (fun _ => false) none none none "20250101"
    (fun _ => none) (fun _ => none) "/r" rfl rfl

/-- **C5.** Repository-root resolution first trusts the external
version-control query; if that is unavailable or failed, it walks upward
from the starting path through itself and every ancestor and returns the
first directory containing `.git`; if neither succeeds it fails with a
root-not-found error, which is fatal and aborts the whole run with the
store untouched. -/
theorem claim5_root_resolution (gitTop : Option String) (ancestors : List String)
    (hasDotGit : String → Bool) :
    (∀ top, gitTop = some top →
      find_repo_root gitTop ancestors hasDotGit = .ok top) ∧
      (gitTop = none → ∀ l₁ p l₂, ancestors = l₁ ++ p :: l₂ →
        (∀ q ∈ l₁, hasDotGit q = false) → hasDotGit p = true →
        find_repo_root gitTop ancestors hasDotGit = .ok p) ∧
      (gitTop = none → (∀ p ∈ ancestors, hasDotGit p = false) →
        find_repo_root gitTop ancestors hasDotGit =
          .error "Could not find repo root (no git and no .git folder found)") ∧
      (∀ m docsArg outArg stampArg today lookupDir store,
        find_repo_root gitTop ancestors hasDotGit = .error m →
        (run_main gitTop ancestors hasDotGit docsArg outArg stampArg today lookupDir
            store).1 = .error m ∧
          (run_main gitTop ancestors hasDotGit docsArg outArg stampArg today lookupDir
            store).2 = store) := by
  refine ⟨?_, ?_, ?_, ?_⟩
  · intro top htop
    rw [htop]
    rfl
  · intro hnone l₁ p l₂ hanc hall hp
    rw [hnone, hanc]
    unfold find_repo_root
    rw [find?_first hasDotGit l₁ p l₂ hall hp]
  · intro hnone hall
    rw [hnone]
    unfold find_repo_root
    have hfind : ancestors.find? hasDotGit = none := by
      rw [List.find?_eq_none]
      intro x hx
      simp [hall x hx]
    rw [hfind]
  · intro m docsArg outArg stampArg today lookupDir store herr
    constructor <;> simp only [run_main, herr]

/-- Witness for C5: all three resolution outcomes on concrete inputs. -/
theorem claim5_witness :
    find_repo_root (some "/top") ["/x"] (fun _ => false) = .ok "/top" ∧
      find_repo_root none ["/a", "/b"] (fun s => s == "/b") = .ok "/b" ∧
      find_repo_root none ["/a"] (fun _ => false) =
        .error "Could not find repo root (no git and no .git folder found)" := by
  refine ⟨(claim5_root_resolution (some "/top") ["/x"] (fun _ => false)).1 "/top" rfl, ?_, ?_⟩
  · exact (claim5_root_resolution none ["/a", "/b"] (fun s => s == "/b")).2.1 rfl
      ["/a"] "/b" [] rfl (by decide) (by decide)
  · exact (claim5_root_resolution none ["/a"] (fun _ => false)).2.2.1 rfl (by simp)

/-- Counterexample to C7 as stated: `--stamp ""` is an explicit override,
yet the archive path is built from the computed date stamp, not from the
override — Python's `args.stamp or london_now_stamp()` treats the empty
string as absent. -/
theorem claim7_counterexample :
    (run_main (some "/r") [] (fun _ => false) none none (some "") "20250101"
          (fun _ => some ([], [])) (fun _ => none)).1 = .ok "/r/20250101_r.zip" ∧
      (run_main (some "/r") [] (fun _ => false) none none (some "") "20250101"
          (fun _ => some ([], [])) (fun _ => none)).1 ≠
        .ok ("/r" ++ "/" ++ ("" ++ "_" ++ pathName "/r" ++ ".zip")) := by
  have h1 : (run_main (some "/r") [] (fun _ => false) none none (some "") "20250101"
      (fun _ => some ([], [])) (fun _ => none)).1 = .ok "/r/20250101_r.zip" := by rfl
  refine ⟨h1, ?_⟩
  intro hc
  have h2 := h1.symm.trans hc
  have h3 := Except.ok.inj h2
  exact absurd h3 (by decide)

/-- **C7 (amended).** The output archive path is always the output directory
joined with `<stamp>_<repo-root-name>.zip`, where the stamp is the explicit
override when one is given and non-empty (an empty override falls back to
the computed stamp); no collision check is performed, so running twice with
the same stamp and repository name overwrites the archive at the identical
path without error. -/
theorem claim7_archive_path_overwrite (gitTop : Option String) (ancestors : List String)
    (hasDotGit : String → Bool) (docsArg outArg : Option String) (s today₁ today₂ : String)
    (lookup₁ lookup₂ : String → Option (List String × List FsEntry))
    (store : String → Option (List ZipEntry)) (root : String)
    (pfx₁ pfx₂ : List String) (t₁ t₂ : List FsEntry)
    (hroot : find_repo_root gitTop ancestors hasDotGit = .ok root) (hs : s ≠ "")
    (h1 : lookup₁ (pyOr docsArg (root ++ "/export_data/inspection_reports")) = some (pfx₁, t₁))
    (h2 : lookup₂ (pyOr docsArg (root ++ "/export_data/inspection_reports")) = some (pfx₂, t₂)) :
    (run_main gitTop ancestors hasDotGit docsArg outArg (some s) today₁ lookup₁ store).1 =
        .ok (pyOr outArg root ++ "/" ++ (s ++ "_" ++ pathName root ++ ".zip")) ∧
      (run_main gitTop ancestors hasDotGit docsArg outArg (some s) today₁ lookup₁ store).2
          (pyOr outArg root ++ "/" ++ (s ++ "_" ++ pathName root ++ ".zip")) =
        some (buildZip pfx₁ t₁) ∧
      (run_main gitTop ancestors hasDotGit docsArg outArg (some s) today₂ lookup₂
          ((run_main gitTop ancestors hasDotGit docsArg outArg (some s) today₁ lookup₁
            store).2)).1 =
        .ok (pyOr outArg root ++ "/" ++ (s ++ "_" ++ pathName root ++ ".zip")) ∧
      (run_main gitTop ancestors hasDotGit docsArg outArg (some s) today₂ lookup₂
          ((run_main gitTop ancestors hasDotGit docsArg outArg (some s) today₁ lookup₁
            store).2)).2
          (pyOr outArg root ++ "/" ++ (s ++ "_" ++ pathName root ++ ".zip")) =
        some (buildZip pfx₂ t₂) := by
  have hstamp1 : pyOr (some s) today₁ = s := by simp [pyOr, hs]
  have hstamp2 : pyOr (some s) today₂ = s := by simp [pyOr, hs]
  refine ⟨?_, ?_, ?_, ?_⟩ <;>
    simp [run_main, hroot, h1, h2, hstamp1, hstamp2, writeStore]

/-- Witness for C7 (amended) on a concrete configuration, two runs with the
same stamp writing to the same path. -/
theorem claim7_witness :
    (run_main (some "/r") [] (fun _ => false) none none (some "X") "T1"
          (fun _ => some (["docs"], sampleTree)) (fun _ => none)).1 =
        .ok (pyOr none "/r" ++ "/" ++ ("X" ++ "_" ++ pathName "/r" ++ ".zip")) ∧
      (run_main (some "/r") [] (fun _ => false) none none (some "X") "T1"
          (fun _ => some (["docs"], sampleTree)) (fun _ => none)).2
          (pyOr none "/r" ++ "/" ++ ("X" ++ "_" ++ pathName "/r" ++ ".zip")) =
        some (buildZip ["docs"] sampleTree) ∧
      (run_main (some "/r") [] (fun _ => false) none none (some "X") "T2"
          (fun _ => some (["docs"], hiddenDirTree))
          ((run_main (some "/r") [] (fun _ => false) none none (some "X") "T1"
            (fun _ => some (["docs"], sampleTree)) (fun _ => none)).2)).1 =
        .ok (pyOr none "/r" ++ "/" ++ ("X" ++ "_" ++ pathName "/r" ++ ".zip")) ∧
      (run_main (some "/r") [] (fun _ => false) none none (some "X") "T2"
          (fun _ => some (["docs"], hiddenDirTree))
          ((run_main (some "/r") [] (fun _ => false) none none (some "X") "T1"
            (fun _ => some (["docs"], sampleTree)) (fun _ => none)).2)).2
          (pyOr none "/r" ++ "/" ++ ("X" ++ "_" ++ pathName "/r" ++ ".zip")) =
        some (buildZip ["docs"] hiddenDirTree) :=
  claim7_archive_path_overwrite (some "/r") [] (fun _ => false) none none "X" "T1" "T2"
    (fun _ => some (["docs"], sampleTree)) (fun _ => some (["docs"], hiddenDirTree))
    (fun _ => none) "/r" ["docs"] ["docs"] sampleTree hiddenDirTree rfl (by decide) rfl rfl

/-- Counterexample to C8 as stated: a directory named `.DS_Store` containing
a clean file. The per-entry filter keeps `.DS_Store/a.txt` (its own base
name is clean and no component equals `__pycache__`), while a traversal that
never descends into a denylisted directory drops the whole subtree. -/
theorem claim8_counterexample :
    wfB hiddenDirTree = true ∧
      ZipEntry.mk ".DS_Store/a.txt" [104] ∈ buildZip ["docs"] hiddenDirTree ∧
      ZipEntry.mk ".DS_Store/a.txt" [104] ∉ prunedZip ["docs"] hiddenDirTree := by
  refine ⟨by decide, by decide, by decide⟩

/-- **C8 (amended).** The per-entry denylist filter is behaviorally
equivalent to a subtree-pruning traversal that never descends into a
directory named `__pycache__` (the cache-directory name) while still
applying the base-name denylist per entry — it is not equivalent to pruning
every denylisted directory, since the contents of a directory merely named
`.DS_Store` or `Thumbs.db` are kept. -/
theorem claim8_cache_prune_equiv (pfx : List String) (t : List FsEntry)
    (hpfx : "__pycache__" ∉ pfx) :
    buildZip pfx t = cachePruneZip pfx t := by
  unfold buildZip cachePruneZip
  congr 1
  funext e
  unfold processEntry
  rw [should_skip_eq_cache pfx e.path hpfx]
  exact if_or_none _ _ _

/-- Witness for C8 (amended) on the tree of the counterexample. -/
theorem claim8_witness :
    buildZip ["docs"] hiddenDirTree = cachePruneZip ["docs"] hiddenDirTree :=
  claim8_cache_prune_equiv ["docs"] hiddenDirTree (by decide)

/-- **C9.** A directory all of whose direct children are denylisted
contributes no entry to the archive: the raw emptiness check sees children,
so no empty-directory marker is written, and each denylisted child is
skipped, so neither the directory nor its children appear in the output. -/
theorem claim9_noise_only_dir_absent (pfx : List String) (t : List FsEntry) (e : FsEntry)
    (hwf : wfB t = true) (he : e ∈ t) (hk : e.kind = .dir)
    (hch : hasAnyChild t e.path = true)
    (hnoise : ∀ c ∈ t, isChildOf c.path e.path = true →
      should_skip (pfx ++ c.path) = true) :
    (buildZip pfx t).countP
        (fun w => w.name == pathStr e.path || w.name == pathStr e.path ++ "/") = 0 ∧
      ∀ c ∈ t, isChildOf c.path e.path = true →
        (buildZip pfx t).countP
          (fun w => w.name == pathStr c.path || w.name == pathStr c.path ++ "/") = 0 := by
  obtain ⟨hpe, hge⟩ := wf_mem hwf he
  constructor
  · apply countP_both_names_zero hwf hpe hge
    intro e'' he'' hpath
    have he''e : e'' = e := List.inj_on_of_nodup_map (wf_paths_nodup hwf) he'' he hpath
    subst he''e
    exact processEntry_dir_nonempty hk hch
  · intro c hc hchild
    obtain ⟨hpc, hgc⟩ := wf_mem hwf hc
    apply countP_both_names_zero hwf hpc hgc
    intro e'' he'' hpath
    have he''c : e'' = c := List.inj_on_of_nodup_map (wf_paths_nodup hwf) he'' hc hpath
    subst he''c
    exact processEntry_skip (hnoise _ hc hchild)

/-- Witness for C9: a directory whose only child is a `.DS_Store` file. -/
theorem claim9_witness :
    (buildZip ["docs"] noiseOnlyTree).countP
        (fun w => w.name == pathStr ["d"] || w.name == pathStr ["d"] ++ "/") = 0 ∧
      (buildZip ["docs"] noiseOnlyTree).countP
        (fun w => w.name == pathStr ["d", ".DS_Store"] ||
          w.name == pathStr ["d", ".DS_Store"] ++ "/") = 0 := by
  have h := claim9_noise_only_dir_absent ["docs"] noiseOnlyTree ⟨["d"], .dir⟩
    (by decide) (by decide) rfl (by decide) (by decide)
  exact ⟨h.1, h.2 ⟨["d", ".DS_Store"], .file [1]⟩ (by decide) (by decide)⟩

/-- **C10.** The base-name denylist is checked only against an entry's own
final component and only `__pycache__` propagates to descendants: a
directory named `.DS_Store` or `Thumbs.db` gets no entry of its own, but
every non-denylisted file inside it is still added under its relative
path. -/
theorem claim10_denylisted_dir_scope (pfx : List String) (t : List FsEntry) (e : FsEntry)
    (hwf : wfB t = true) (he : e ∈ t) (hk : e.kind = .dir)
    (hname : e.path.getLastD "" = ".DS_Store" ∨ e.path.getLastD "" = "Thumbs.db") :
    (buildZip pfx t).countP
        (fun w => w.name == pathStr e.path || w.name == pathStr e.path ++ "/") = 0 ∧
      ∀ f c, f ∈ t → f.kind = .file c → (∃ rest, f.path = e.path ++ rest) →
        f.path.getLastD "" ≠ ".DS_Store" → f.path.getLastD "" ≠ "Thumbs.db" →
        "__pycache__" ∉ f.path → "__pycache__" ∉ pfx →
        ZipEntry.mk (pathStr f.path) c ∈ buildZip pfx t ∧
          (buildZip pfx t).countP (fun w => w.name == pathStr f.path) = 1 := by
  obtain ⟨hpe, hge⟩ := wf_mem hwf he
  constructor
  · apply countP_both_names_zero hwf hpe hge
    intro e'' he'' hpath
    have he''e : e'' = e := List.inj_on_of_nodup_map (wf_paths_nodup hwf) he'' he hpath
    subst he''e
    exact processEntry_skip (should_skip_of_name hpe hname)
  · intro f c hf hkf hin hds htd hpy hpfx
    obtain ⟨hpf, -⟩ := wf_mem hwf hf
    have hskip : should_skip (pfx ++ f.path) = false :=
      (should_skip_false_iff hpf).mpr ⟨hds, htd, hpfx, hpy⟩
    have hz := processEntry_file (t := t) hkf hskip
    exact ⟨mem_buildZip.mpr ⟨f, hf, hz⟩, countP_name_one hwf hf hz⟩

/-- Witness for C10: the `.DS_Store`-named directory with a clean file. -/
theorem claim10_witness :
    (buildZip ["docs"] hiddenDirTree).countP
        (fun w => w.name == pathStr [".DS_Store"] ||
          w.name == pathStr [".DS_Store"] ++ "/") = 0 ∧
      ZipEntry.mk (pathStr [".DS_Store", "a.txt"]) [104] ∈ buildZip ["docs"] hiddenDirTree := by
  have h := claim10_denylisted_dir_scope ["docs"] hiddenDirTree ⟨[".DS_Store"], .dir⟩
    (by decide) (by decide) rfl (Or.inl (by decide))
  exact ⟨h.1, (h.2 ⟨[".DS_Store", "a.txt"], .file [104]⟩ [104] (by decide) rfl
    ⟨["a.txt"], rfl⟩ (by decide) (by decide) (by decide) (by decide)).1⟩

end ZipScrape
